import Mathlib

/-!
Verification of the identifier-range toolkit and the identifier remapper of
cmlibs.utils (src/cmlibs/utils/zinc/group.py and src/cmlibs/utils/zinc/region.py),
as a shallow embedding: Python strings are lists of characters, Python integers
are Int (ranges) or Nat (identifiers produced by parsing and remapping).
-/

/-- Lexicographic order on [start, stop] pairs; this is how Python's list.sort
compares the two-element lists held in an identifier range list. -/
def rangeLE (p q : Int × Int) : Prop :=
  p.1 < q.1 ∨ (p.1 = q.1 ∧ p.2 ≤ q.2)

instance : DecidableRel rangeLE := fun p q => by
  unfold rangeLE; exact inferInstance

instance : IsTotal (Int × Int) rangeLE := ⟨fun p q => by unfold rangeLE; omega⟩

instance : IsTrans (Int × Int) rangeLE := ⟨fun p q r => by unfold rangeLE; omega⟩

/-- group.py line 80: identifier_ranges.sort() (lexicographic on pairs). -/
def sortRanges (l : List (Int × Int)) : List (Int × Int) :=
  List.insertionSort rangeLE l

/-- group.py lines 81-88: one step state of the merge scan of
identifier_ranges_fix: r1 is ranges[i-1], the list argument holds ranges[i]
onwards.  When ranges[i].start is at most ranges[i-1].stop + 1 the loop raises
ranges[i-1].stop to the larger stop and pops ranges[i], otherwise it moves
on. -/
def mergeInto (r1 : Int × Int) : List (Int × Int) → List (Int × Int)
  | [] => [r1]
  | r2 :: rest =>
    if r2.1 ≤ r1.2 + 1 then mergeInto (r1.1, max r1.2 r2.2) rest
    else r1 :: mergeInto r2 rest

/-- group.py lines 81-88: the merge scan of identifier_ranges_fix over the
whole (sorted) list. -/
def mergeRanges : List (Int × Int) → List (Int × Int)
  | [] => []
  | r :: rest => mergeInto r rest

/-- group.py lines 74-88: identifier_ranges_fix (sort, then merge adjacent and
overlapping ranges). -/
def identifier_ranges_fix (l : List (Int × Int)) : List (Int × Int) :=
  mergeRanges (sortRanges l)

/-- The set of integers covered by a range list (spec section 3, Identifier
Set): x is covered when some [start, stop] entry has start <= x <= stop. -/
def covers (l : List (Int × Int)) (x : Int) : Prop :=
  ∃ r ∈ l, r.1 ≤ x ∧ x ≤ r.2

/-- The canonical-form invariant of spec section 3: ranges sorted ascending,
pairwise non-overlapping and non-adjacent (each stop + 1 below the next start),
every range with start <= stop. -/
def IsNormalized (l : List (Int × Int)) : Prop :=
  List.Chain' (fun p q => p.2 + 1 < q.1) l ∧ ∀ r ∈ l, r.1 ≤ r.2

/-- Python str.split(sep) with a one-character separator: the empty string
gives [""], and every separator occurrence starts a new piece. -/
def splitOnChar (c : Char) : List Char → List (List Char)
  | [] => [[]]
  | x :: xs =>
    if x = c then [] :: splitOnChar c xs
    else
      match splitOnChar c xs with
      | [] => [[x]]
      | t :: ts => (x :: t) :: ts

/-- Python str.strip(): drop leading and trailing whitespace. -/
def stripChars (s : List Char) : List Char :=
  ((s.dropWhile Char.isWhitespace).reverse.dropWhile Char.isWhitespace).reverse

/-- group.py lines 108-113: cleanup of one endpoint string: strip whitespace,
then keep only the leading run of digits (the loop truncates at the first
non-digit). -/
def clean_endpoint (s : List Char) : List Char :=
  (stripChars s).takeWhile Char.isDigit

/-- Numeric value of a decimal digit character. -/
def digitVal (c : Char) : Nat := c.toNat - 48

/-- Python int() on the endpoint strings this code feeds it: it succeeds
exactly on nonempty all-digit strings, returning the decimal value. -/
def parseNat (s : List Char) : Option Nat :=
  if s ≠ [] ∧ s.all Char.isDigit then
    some (s.foldl (fun a c => 10 * a + digitVal c) 0)
  else none

/-- group.py lines 103-124: the body of the token loop of
identifier_ranges_from_string.  The token is split on the dash, each endpoint
is cleaned, and the first one (and the second when present) is parsed; a
failed int() aborts the token (the try/except drops it), a single endpoint
yields [n, n], two endpoints are put in low-high order, endpoints beyond the
second are ignored. -/
def range_from_token (t : List Char) : Option (Int × Int) :=
  match (splitOnChar '-' t).map clean_endpoint with
  | [] => none
  | e0 :: rest =>
    match parseNat e0 with
    | none => none
    | some start =>
      match rest with
      | [] => some ((start : Int), (start : Int))
      | e1 :: _ =>
        match parseNat e1 with
        | none => none
        | some stop =>
          if stop < start then some ((stop : Int), (start : Int))
          else some ((start : Int), (stop : Int))

/-- group.py lines 91-126: identifier_ranges_from_string. -/
def identifier_ranges_from_string (s : List Char) : List (Int × Int) :=
  identifier_ranges_fix ((splitOnChar ',' s).filterMap range_from_token)

/-- Decimal digit character for a value below ten. -/
def digitChar (d : Nat) : Char :=
  if d = 0 then '0' else if d = 1 then '1' else if d = 2 then '2'
  else if d = 3 then '3' else if d = 4 then '4' else if d = 5 then '5'
  else if d = 6 then '6' else if d = 7 then '7' else if d = 8 then '8' else '9'

/-- Decimal digit characters of n, least significant first, with explicit
fuel so the definition is structurally recursive. -/
def natToCharsAux : Nat → Nat → List Char
  | 0, _ => []
  | _ + 1, 0 => []
  | fuel + 1, n => digitChar (n % 10) :: natToCharsAux fuel (n / 10)

/-- Python str() of a nonnegative integer: standard decimal notation, most
significant digit first. -/
def natToChars (n : Nat) : List Char :=
  if n = 0 then ['0'] else (natToCharsAux n n).reverse

/-- Python str() of an integer. -/
def intToChars (i : Int) : List Char :=
  if i < 0 then '-' :: natToChars i.natAbs else natToChars i.toNat

/-- group.py lines 139-142: one range rendered as a string, contracting a
single-object range to one number. -/
def range_to_chars (r : Int × Int) : List Char :=
  if r.1 = r.2 then intToChars r.1
  else intToChars r.1 ++ '-' :: intToChars r.2

/-- group.py lines 129-148: identifier_ranges_to_string (the first/append
loop joining the rendered ranges with commas). -/
def identifier_ranges_to_string : List (Int × Int) → List Char
  | [] => []
  | r :: rest =>
    rest.foldl (fun acc q => acc ++ ',' :: range_to_chars q) (range_to_chars r)

/-- group.py lines 162-172: the run-tracking loop of
domain_iterator_to_identifier_ranges, carrying the open run [start, stop]. -/
def domainRunLoop (start stop : Int) : List Int → List (Int × Int)
  | [] => [(start, stop)]
  | i :: rest =>
    if i = stop + 1 then domainRunLoop start i rest
    else (start, stop) :: domainRunLoop i i rest

/-- group.py lines 151-173: domain_iterator_to_identifier_ranges, with the
iterator's identifier stream given as a list. -/
def domain_iterator_to_identifier_ranges : List Int → List (Int × Int)
  | [] => []
  | i :: rest => domainRunLoop i i rest

/-- region.py lines 8-10: _find_missing (the integers strictly between
consecutive entries of the list). -/
def find_missing (lst : List Nat) : List Nat :=
  (((lst.zip lst.tail).map fun p =>
    if p.2 - p.1 > 1 then List.range' (p.1 + 1) (p.2 - p.1 - 1) else [])).flatten

/-- Python sorted(list(set(l))): the sorted list of the distinct elements. -/
def sortedDedup (l : List Nat) : List Nat :=
  List.insertionSort (fun x y => x ≤ y) l.dedup

/-- region.py line 24: in_use_identifiers, the sorted deduplicated union of
the existing datapoint identifiers b and the existing node identifiers a. -/
def in_use_identifiers (a b : List Nat) : List Nat := sortedDedup (b ++ a)

/-- region.py lines 26-27: available_identifiers, the unused identifiers below
the smallest in-use identifier (starting from 1) followed by the gaps between
consecutive in-use identifiers. -/
def gap_list (a b : List Nat) : List Nat :=
  List.range' 1 ((in_use_identifiers a b).headD 1 - 1)
    ++ find_missing (in_use_identifiers a b)

/-- region.py line 25: max_identifier, the running high-water mark, starting
at the largest in-use identifier. -/
def max_identifier (a b : List Nat) : Nat := (in_use_identifiers a b).getLastD 0

/-- region.py lines 31-40: the datapoint loop.  A candidate that collides with
an existing node identifier takes the next gap when one remains; otherwise
(gaps exhausted, or no collision) it takes one past the running high-water
mark, which is incremented. -/
def remapLoop (aSet : List Nat) : List Nat → List Nat → Nat → List (Nat × Nat)
  | [], _, _ => []
  | c :: cs, [], maxId => (c, maxId + 1) :: remapLoop aSet cs [] (maxId + 1)
  | c :: cs, g :: rest, maxId =>
    if c ∈ aSet then (c, g) :: remapLoop aSet cs rest maxId
    else (c, maxId + 1) :: remapLoop aSet cs (g :: rest) (maxId + 1)

/-- region.py lines 21-40: the identifier_map computation of
convert_nodes_to_datapoints (the spec's computeRemap), with a the existing
node identifiers of the origin, b the existing datapoint identifiers of the
destination, and cands the datapoint identifiers in iteration order. -/
def computeRemap (a b cands : List Nat) : List (Nat × Nat) :=
  remapLoop a cands (gap_list a b) (max_identifier a b)

theorem covers_nil (x : Int) : ¬ covers [] x := by simp [covers]

theorem covers_cons {r : Int × Int} {l : List (Int × Int)} {x : Int} :
    covers (r :: l) x ↔ (r.1 ≤ x ∧ x ≤ r.2) ∨ covers l x := by
  simp [covers]

theorem covers_of_perm {l l' : List (Int × Int)} (h : l.Perm l') (x : Int) :
    covers l x ↔ covers l' x := by
  unfold covers
  constructor <;> rintro ⟨r, hr, hx⟩
  · exact ⟨r, h.mem_iff.mp hr, hx⟩
  · exact ⟨r, h.mem_iff.mpr hr, hx⟩

theorem sortRanges_perm (l : List (Int × Int)) : (sortRanges l).Perm l :=
  List.perm_insertionSort rangeLE l

theorem sortRanges_fstLE (l : List (Int × Int)) :
    (sortRanges l).Pairwise fun p q => p.1 ≤ q.1 := by
  have h := List.sorted_insertionSort rangeLE l
  exact h.imp fun hpq => by unfold rangeLE at hpq; omega

theorem mergeInto_covers : ∀ (l : List (Int × Int)) (r1 : Int × Int), r1.1 ≤ r1.2 →
    (∀ q ∈ l, r1.1 ≤ q.1) → l.Pairwise (fun p q => p.1 ≤ q.1) → (∀ q ∈ l, q.1 ≤ q.2) →
    ∀ x, covers (mergeInto r1 l) x ↔ (r1.1 ≤ x ∧ x ≤ r1.2) ∨ covers l x := by
  intro l
  induction l with
  | nil => intro r1 _ _ _ _ x; simp [mergeInto, covers]
  | cons r2 rest ih =>
    intro r1 hv1 hle hpw hval x
    have h21 : r1.1 ≤ r2.1 := hle r2 (List.mem_cons_self _ _)
    have hv2 : r2.1 ≤ r2.2 := hval r2 (List.mem_cons_self _ _)
    by_cases hc : r2.1 ≤ r1.2 + 1
    · rw [mergeInto, if_pos hc]
      rw [ih (r1.1, max r1.2 r2.2) (by simp; omega)
        (fun q hq => hle q (List.mem_cons_of_mem _ hq)) hpw.of_cons
        (fun q hq => hval q (List.mem_cons_of_mem _ hq)) x]
      rw [covers_cons]
      simp only
      constructor
      · rintro (⟨h1, h2⟩ | hC)
        · by_cases hx : x ≤ r1.2
          · exact Or.inl ⟨h1, hx⟩
          · exact Or.inr (Or.inl ⟨by omega, by omega⟩)
        · exact Or.inr (Or.inr hC)
      · rintro (⟨h1, h2⟩ | ⟨h1, h2⟩ | hC)
        · exact Or.inl ⟨h1, by omega⟩
        · exact Or.inl ⟨by omega, by omega⟩
        · exact Or.inr hC
    · rw [mergeInto, if_neg hc]
      rw [covers_cons, ih r2 hv2 (fun q hq => List.rel_of_pairwise_cons hpw hq)
        hpw.of_cons (fun q hq => hval q (List.mem_cons_of_mem _ hq)) x, covers_cons]

theorem mergeRanges_covers : ∀ {l : List (Int × Int)},
    l.Pairwise (fun p q => p.1 ≤ q.1) → (∀ q ∈ l, q.1 ≤ q.2) →
    ∀ x, covers (mergeRanges l) x ↔ covers l x := by
  intro l hpw hval x
  cases l with
  | nil => rfl
  | cons r rest =>
    rw [mergeRanges]
    rw [mergeInto_covers rest r (hval r (List.mem_cons_self _ _))
      (fun q hq => List.rel_of_pairwise_cons hpw hq) hpw.of_cons
      (fun q hq => hval q (List.mem_cons_of_mem _ hq)) x, covers_cons]

theorem mergeInto_head : ∀ (l : List (Int × Int)) (r1 : Int × Int),
    ∃ s t, mergeInto r1 l = (r1.1, s) :: t ∧ r1.2 ≤ s := by
  intro l
  induction l with
  | nil => intro r1; exact ⟨r1.2, [], by simp [mergeInto], le_refl _⟩
  | cons r2 rest ih =>
    intro r1
    by_cases hc : r2.1 ≤ r1.2 + 1
    · obtain ⟨s, t, heq, hle⟩ := ih (r1.1, max r1.2 r2.2)
      refine ⟨s, t, ?_, ?_⟩
      · rw [mergeInto, if_pos hc]; exact heq
      · simp at hle; omega
    · exact ⟨r1.2, mergeInto r2 rest, by rw [mergeInto, if_neg hc], le_refl _⟩

theorem isNormalized_cons {p : Int × Int} {l : List (Int × Int)} :
    IsNormalized (p :: l) ↔
      (∀ q ∈ l.head?, p.2 + 1 < q.1) ∧ p.1 ≤ p.2 ∧ IsNormalized l := by
  unfold IsNormalized
  rw [List.chain'_cons']
  constructor
  · rintro ⟨⟨hh, hc⟩, hv⟩
    exact ⟨hh, hv p (List.mem_cons_self _ _),
      hc, fun r hr => hv r (List.mem_cons_of_mem _ hr)⟩
  · rintro ⟨hh, hp, hc, hv⟩
    refine ⟨⟨hh, hc⟩, fun r hr => ?_⟩
    rcases List.mem_cons.mp hr with rfl | hr'
    · exact hp
    · exact hv r hr'

theorem mergeInto_normalized : ∀ (l : List (Int × Int)) (r1 : Int × Int), r1.1 ≤ r1.2 →
    (∀ q ∈ l, q.1 ≤ q.2) → IsNormalized (mergeInto r1 l) := by
  intro l
  induction l with
  | nil =>
    intro r1 hv _
    rw [mergeInto]
    exact ⟨List.chain'_singleton _, by simpa using hv⟩
  | cons r2 rest ih =>
    intro r1 hv1 hval
    have hv2 : r2.1 ≤ r2.2 := hval r2 (List.mem_cons_self _ _)
    by_cases hc : r2.1 ≤ r1.2 + 1
    · rw [mergeInto, if_pos hc]
      exact ih (r1.1, max r1.2 r2.2) (by simp; omega)
        (fun q hq => hval q (List.mem_cons_of_mem _ hq))
    · rw [mergeInto, if_neg hc]
      obtain ⟨s, t, heq, hle⟩ := mergeInto_head rest r2
      have hn := ih r2 hv2 (fun q hq => hval q (List.mem_cons_of_mem _ hq))
      rw [isNormalized_cons, heq]
      refine ⟨?_, hv1, by rw [← heq]; exact hn⟩
      intro q hq
      simp at hq
      subst hq
      simp
      omega

theorem normalized_pairwise : ∀ {l : List (Int × Int)}, IsNormalized l →
    l.Pairwise fun p q => p.2 + 1 < q.1 := by
  intro l
  induction l with
  | nil => intro _; exact List.Pairwise.nil
  | cons p t ih =>
    intro h
    rw [isNormalized_cons] at h
    obtain ⟨hh, hv, hn⟩ := h
    have ht := ih hn
    refine List.Pairwise.cons ?_ ht
    intro z hz
    cases t with
    | nil => cases hz
    | cons q t' =>
      have hpq : p.2 + 1 < q.1 := hh q rfl
      rcases List.mem_cons.mp hz with rfl | hz'
      · exact hpq
      · have hqz : q.2 + 1 < z.1 := List.rel_of_pairwise_cons ht hz'
        have hq : q.1 ≤ q.2 := hn.2 q (List.mem_cons_self _ _)
        omega

theorem covers_tail_gt {p : Int × Int} {t : List (Int × Int)} (h : IsNormalized (p :: t))
    {x : Int} (hc : covers t x) : p.2 + 1 < x := by
  obtain ⟨r, hr, h1, h2⟩ := hc
  have := List.rel_of_pairwise_cons (normalized_pairwise h) hr
  omega

theorem normalized_unique : ∀ (l₁ l₂ : List (Int × Int)), IsNormalized l₁ → IsNormalized l₂ →
    (∀ x, covers l₁ x ↔ covers l₂ x) → l₁ = l₂ := by
  intro l₁
  induction l₁ with
  | nil =>
    intro l₂ _ h₂ hcov
    cases l₂ with
    | nil => rfl
    | cons q t =>
      exfalso
      have hq : covers (q :: t) q.1 :=
        ⟨q, List.mem_cons_self _ _, le_refl _, h₂.2 q (List.mem_cons_self _ _)⟩
      exact covers_nil q.1 ((hcov q.1).mpr hq)
  | cons p t₁ ih =>
    intro l₂ h₁ h₂ hcov
    cases l₂ with
    | nil =>
      exfalso
      have hp : covers (p :: t₁) p.1 :=
        ⟨p, List.mem_cons_self _ _, le_refl _, h₁.2 p (List.mem_cons_self _ _)⟩
      exact covers_nil p.1 ((hcov p.1).mp hp)
    | cons q t₂ =>
      have hv1 : p.1 ≤ p.2 := h₁.2 p (List.mem_cons_self _ _)
      have hv2 : q.1 ≤ q.2 := h₂.2 q (List.mem_cons_self _ _)
      have hfst : p.1 = q.1 := by
        have hc1 : covers (q :: t₂) p.1 :=
          (hcov p.1).mp ⟨p, List.mem_cons_self _ _, le_refl _, hv1⟩
        have hc2 : covers (p :: t₁) q.1 :=
          (hcov q.1).mpr ⟨q, List.mem_cons_self _ _, le_refl _, hv2⟩
        have hq_le_p : q.1 ≤ p.1 := by
          rcases covers_cons.mp hc1 with ⟨ha, _⟩ | hc
          · exact ha
          · have := covers_tail_gt h₂ hc; omega
        have hp_le_q : p.1 ≤ q.1 := by
          rcases covers_cons.mp hc2 with ⟨ha, _⟩ | hc
          · exact ha
          · have := covers_tail_gt h₁ hc; omega
        omega
      have hsnd : p.2 = q.2 := by
        rcases lt_trichotomy p.2 q.2 with hlt | heq | hgt
        · exfalso
          have hcv : covers (q :: t₂) (p.2 + 1) := ⟨q, List.mem_cons_self _ _, by omega, by omega⟩
          rcases covers_cons.mp ((hcov (p.2 + 1)).mpr hcv) with ⟨_, hb⟩ | hc
          · omega
          · have := covers_tail_gt h₁ hc; omega
        · exact heq
        · exfalso
          have hcv : covers (p :: t₁) (q.2 + 1) := ⟨p, List.mem_cons_self _ _, by omega, by omega⟩
          rcases covers_cons.mp ((hcov (q.2 + 1)).mp hcv) with ⟨_, hb⟩ | hc
          · omega
          · have := covers_tail_gt h₂ hc; omega
      have htails : ∀ x, covers t₁ x ↔ covers t₂ x := by
        intro x
        constructor
        · intro hx
          have hgt := covers_tail_gt h₁ hx
          rcases covers_cons.mp ((hcov x).mp (covers_cons.mpr (Or.inr hx))) with ⟨_, hb⟩ | hc
          · omega
          · exact hc
        · intro hx
          have hgt := covers_tail_gt h₂ hx
          rcases covers_cons.mp ((hcov x).mpr (covers_cons.mpr (Or.inr hx))) with ⟨_, hb⟩ | hc
          · omega
          · exact hc
      have hn₁ : IsNormalized t₁ := (isNormalized_cons.mp h₁).2.2
      have hn₂ : IsNormalized t₂ := (isNormalized_cons.mp h₂).2.2
      rw [ih t₂ hn₁ hn₂ htails, Prod.ext hfst hsnd]

theorem fix_covers {l : List (Int × Int)} (hval : ∀ r ∈ l, r.1 ≤ r.2) (x : Int) :
    covers (identifier_ranges_fix l) x ↔ covers l x := by
  unfold identifier_ranges_fix
  rw [mergeRanges_covers (sortRanges_fstLE l)
    (fun q hq => hval q ((sortRanges_perm l).mem_iff.mp hq)) x]
  exact covers_of_perm (sortRanges_perm l) x

theorem mergeRanges_normalized : ∀ {l : List (Int × Int)}, (∀ q ∈ l, q.1 ≤ q.2) →
    IsNormalized (mergeRanges l) := by
  intro l hval
  cases l with
  | nil => exact ⟨List.chain'_nil, by intro r hr; simp [mergeRanges] at hr⟩
  | cons r rest =>
    rw [mergeRanges]
    exact mergeInto_normalized rest r (hval r (List.mem_cons_self _ _))
      (fun q hq => hval q (List.mem_cons_of_mem _ hq))

theorem fix_normalized {l : List (Int × Int)} (hval : ∀ r ∈ l, r.1 ≤ r.2) :
    IsNormalized (identifier_ranges_fix l) :=
  mergeRanges_normalized fun q hq => hval q ((sortRanges_perm l).mem_iff.mp hq)

theorem mergeInto_chain_eq : ∀ (l : List (Int × Int)) (r1 : Int × Int),
    List.Chain' (fun p q => p.2 + 1 < q.1) (r1 :: l) → mergeInto r1 l = r1 :: l := by
  intro l
  induction l with
  | nil => intro r1 _; rfl
  | cons r2 rest ih =>
    intro r1 hc
    have h12 : r1.2 + 1 < r2.1 := List.chain'_cons.mp hc |>.1
    rw [mergeInto, if_neg (by omega), ih r2 (List.chain'_cons.mp hc).2]

theorem fix_eq_self {l : List (Int × Int)} (h : IsNormalized l) :
    identifier_ranges_fix l = l := by
  unfold identifier_ranges_fix
  have hsorted : List.Sorted rangeLE l := by
    refine (normalized_pairwise h).imp_of_mem fun ha _ hr => ?_
    have := h.2 _ ha
    unfold rangeLE
    omega
  rw [show sortRanges l = l from hsorted.insertionSort_eq]
  cases l with
  | nil => rfl
  | cons p t => exact mergeInto_chain_eq t p h.1

/-- C3: the claim as stated is false on the code: with [a,b] = [5,9] and
[c,d] = [1,2] we have a <= b, c <= d and c <= b+1, yet normalizing
[[5,9],[1,2]] yields [[1,2],[5,9]], not [[min(a,c), max(b,d)]] = [[1,9]]. -/
theorem C3_counterexample : ((5 : Int) ≤ 9 ∧ (1 : Int) ≤ 2 ∧ (1 : Int) ≤ 9 + 1) ∧
    identifier_ranges_fix [((5 : Int), 9), (1, 2)] ≠ [(min 5 1, max 9 2)] := by
  decide

/-- C3 (amended): for ranges [a,b], [c,d] with a <= b, c <= d, c <= b+1 and
additionally a <= d+1 (so the two ranges overlap or are adjacent in both
directions), normalizing [[a,b],[c,d]] yields [[min(a,c), max(b,d)]]. -/
theorem C3_thm (a b c d : Int) (hab : a ≤ b) (hcd : c ≤ d) (hcb : c ≤ b + 1)
    (had : a ≤ d + 1) :
    identifier_ranges_fix [(a, b), (c, d)] = [(min a c, max b d)] := by
  have hval : ∀ r ∈ [(a, b), (c, d)], r.1 ≤ r.2 := by
    intro r hr
    rcases List.mem_cons.mp hr with rfl | hr'
    · exact hab
    · simp only [List.mem_singleton] at hr'
      subst hr'
      exact hcd
  have hn1 : IsNormalized [(min a c, max b d)] := by
    refine ⟨List.chain'_singleton _, ?_⟩
    intro r hr
    simp only [List.mem_singleton] at hr
    subst hr
    show min a c ≤ max b d
    omega
  have hcov : ∀ x, covers [(min a c, max b d)] x ↔ covers [(a, b), (c, d)] x := by
    intro x
    rw [covers_cons, covers_cons, covers_cons]
    constructor
    · rintro (⟨h1, h2⟩ | h)
      · have h1' : min a c ≤ x := h1
        have h2' : x ≤ max b d := h2
        by_cases hx : a ≤ x ∧ x ≤ b
        · exact Or.inl ⟨hx.1, hx.2⟩
        · exact Or.inr (Or.inl ⟨show c ≤ x by omega, show x ≤ d by omega⟩)
      · exact absurd h (covers_nil x)
    · rintro (⟨h1, h2⟩ | ⟨h1, h2⟩ | h)
      · have h1' : a ≤ x := h1
        have h2' : x ≤ b := h2
        exact Or.inl ⟨show min a c ≤ x by omega, show x ≤ max b d by omega⟩
      · have h1' : c ≤ x := h1
        have h2' : x ≤ d := h2
        exact Or.inl ⟨show min a c ≤ x by omega, show x ≤ max b d by omega⟩
      · exact absurd h (covers_nil x)
  exact (normalized_unique [(min a c, max b d)] _ hn1 (fix_normalized hval)
    fun x => (hcov x).trans (fix_covers hval x).symm).symm

/-- C3 witness: [1,3] and [2,5] merge to [1,5]. -/
theorem C3_witness : ((1 : Int) ≤ 3 ∧ (2 : Int) ≤ 5 ∧ (2 : Int) ≤ 3 + 1 ∧ (1 : Int) ≤ 5 + 1) ∧
    identifier_ranges_fix [((1 : Int), 3), (2, 5)] = [(min 1 2, max 3 5)] :=
  ⟨by decide, C3_thm 1 3 2 5 (by decide) (by decide) (by decide) (by decide)⟩

/-- C8: for every range list whose ranges satisfy start <= stop, normalization
preserves the covered identifier set, the result satisfies the canonical
invariant, and it is the unique (hence minimal) such list covering that set. -/
theorem C8_thm (l : List (Int × Int)) (hval : ∀ r ∈ l, r.1 ≤ r.2) :
    (∀ x, covers (identifier_ranges_fix l) x ↔ covers l x) ∧
    IsNormalized (identifier_ranges_fix l) ∧
    ∀ l₂, IsNormalized l₂ → (∀ x, covers l₂ x ↔ covers l x) →
      l₂ = identifier_ranges_fix l := by
  refine ⟨fix_covers hval, fix_normalized hval, ?_⟩
  intro l₂ hn hcov
  exact normalized_unique l₂ _ hn (fix_normalized hval)
    fun x => (hcov x).trans (fix_covers hval x).symm

/-- C8 witness at the unsorted adjacent list [[3,4],[1,2]]. -/
theorem C8_witness : (∀ r ∈ [((3 : Int), 4), (1, 2)], r.1 ≤ r.2) ∧
    IsNormalized (identifier_ranges_fix [((3 : Int), 4), (1, 2)]) :=
  ⟨by decide, (C8_thm [((3 : Int), 4), (1, 2)] (by decide)).2.1⟩

theorem splitOnChar_ne_nil (c : Char) (s : List Char) : splitOnChar c s ≠ [] := by
  cases s with
  | nil => simp [splitOnChar]
  | cons x xs =>
    by_cases h : x = c
    · simp [splitOnChar, h]
    · rcases heq : splitOnChar c xs with _ | ⟨t, ts⟩ <;> simp [splitOnChar, h, heq]

theorem splitOnChar_not_mem {c : Char} : ∀ {s : List Char}, c ∉ s → splitOnChar c s = [s] := by
  intro s
  induction s with
  | nil => intro _; rfl
  | cons x xs ih =>
    intro h
    have hx : ¬ x = c := fun hh => h (hh ▸ List.mem_cons_self _ _)
    rw [splitOnChar, if_neg hx, ih fun hc => h (List.mem_cons_of_mem _ hc)]

theorem splitOnChar_append (c : Char) : ∀ (x y : List Char),
    splitOnChar c (x ++ c :: y) = splitOnChar c x ++ splitOnChar c y := by
  intro x y
  induction x with
  | nil => simp [splitOnChar]
  | cons a as ih =>
    by_cases h : a = c
    · subst h
      rw [List.cons_append, splitOnChar, if_pos rfl, ih, splitOnChar, if_pos rfl]
      rfl
    · obtain ⟨t, ts, heq⟩ : ∃ t ts, splitOnChar c as = t :: ts := by
        rcases hh : splitOnChar c as with _ | ⟨t, ts⟩
        · exact absurd hh (splitOnChar_ne_nil c as)
        · exact ⟨t, ts, rfl⟩
      rw [List.cons_append, splitOnChar, if_neg h, ih, heq, splitOnChar, if_neg h, heq]
      rfl

theorem range_from_token_single {t : List Char} {n : Nat} (hd : '-' ∉ t)
    (hp : parseNat (clean_endpoint t) = some n) :
    range_from_token t = some ((n : Int), (n : Int)) := by
  unfold range_from_token
  rw [splitOnChar_not_mem hd]
  simp [hp]

/-- C4: every token of every input whose dash-split yields a single endpoint,
that endpoint parsing to n after cleanup (whitespace strip, truncation at the
first non-digit), is converted to the single-identifier raw range [n, n], and
that range enters the collected list which normalization is applied to. -/
theorem C4_thm (s t : List Char) (n : Nat) (hts : t ∈ splitOnChar ',' s)
    (hd : '-' ∉ t) (hp : parseNat (clean_endpoint t) = some n) :
    range_from_token t = some ((n : Int), (n : Int)) ∧
    ((n : Int), (n : Int)) ∈ (splitOnChar ',' s).filterMap range_from_token := by
  have h := range_from_token_single hd hp
  exact ⟨h, List.mem_filterMap.mpr ⟨t, hts, h⟩⟩

/-- C4 witness: the token "42" of the input "42". -/
theorem C4_witness : (['4', '2'] ∈ splitOnChar ',' ['4', '2'] ∧ '-' ∉ ['4', '2'] ∧
    parseNat (clean_endpoint ['4', '2']) = some 42) ∧
    range_from_token ['4', '2'] = some ((42 : Int), 42) :=
  ⟨by decide, (C4_thm ['4', '2'] ['4', '2'] 42 (by decide) (by decide) (by decide)).1⟩

/-- C9: a malformed token (one on which range_from_token fails, i.e. an
endpoint is empty after cleanup) is silently dropped: the parse of a string
containing it equals the parse of the same string without it, and the
remaining tokens are still parsed and normalized. -/
theorem C9_thm (x y bad : List Char) (hc : ',' ∉ bad)
    (hbad : range_from_token bad = none) :
    identifier_ranges_from_string (x ++ ',' :: (bad ++ ',' :: y)) =
      identifier_ranges_from_string (x ++ ',' :: y) := by
  unfold identifier_ranges_from_string
  rw [splitOnChar_append ',' x (bad ++ ',' :: y), splitOnChar_append ',' bad y,
    splitOnChar_not_mem hc, splitOnChar_append ',' x y]
  simp [List.filterMap_append, List.filterMap_cons, hbad]

/-- C9 witness: dropping the malformed token "x" from "1,x,3". -/
theorem C9_witness : (',' ∉ ['x'] ∧ range_from_token ['x'] = none) ∧
    identifier_ranges_from_string (['1'] ++ ',' :: (['x'] ++ ',' :: ['3'])) =
      identifier_ranges_from_string (['1'] ++ ',' :: ['3']) :=
  ⟨by decide, C9_thm ['1'] ['3'] ['x'] (by decide) (by decide)⟩

theorem range_from_token_valid {t : List Char} {r : Int × Int}
    (h : range_from_token t = some r) : 0 ≤ r.1 ∧ r.1 ≤ r.2 := by
  unfold range_from_token at h
  split at h
  · exact absurd h (by simp)
  · split at h
    · exact absurd h (by simp)
    · split at h
      · simp only [Option.some.injEq] at h
        subst h
        exact ⟨Int.natCast_nonneg _, le_refl _⟩
      · split at h
        · exact absurd h (by simp)
        · split at h <;> simp only [Option.some.injEq] at h <;> subst h <;>
            exact ⟨Int.natCast_nonneg _, by omega⟩

theorem parse_ranges_valid (s : List Char) :
    ∀ r ∈ (splitOnChar ',' s).filterMap range_from_token, 0 ≤ r.1 ∧ r.1 ≤ r.2 := by
  intro r hr
  obtain ⟨t, _, ht⟩ := List.mem_filterMap.mp hr
  exact range_from_token_valid ht

theorem mergeInto_fst_prop (P : Int → Prop) : ∀ (l : List (Int × Int)) (r1 : Int × Int),
    P r1.1 → (∀ q ∈ l, P q.1) → ∀ p ∈ mergeInto r1 l, P p.1 := by
  intro l
  induction l with
  | nil =>
    intro r1 h1 _ p hp
    rw [mergeInto] at hp
    simp only [List.mem_singleton] at hp
    subst hp
    exact h1
  | cons r2 rest ih =>
    intro r1 h1 hall p hp
    by_cases hc : r2.1 ≤ r1.2 + 1
    · rw [mergeInto, if_pos hc] at hp
      exact ih (r1.1, max r1.2 r2.2) h1 (fun q hq => hall q (List.mem_cons_of_mem _ hq)) p hp
    · rw [mergeInto, if_neg hc] at hp
      rcases List.mem_cons.mp hp with rfl | hp'
      · exact h1
      · exact ih r2 (hall r2 (List.mem_cons_self _ _))
          (fun q hq => hall q (List.mem_cons_of_mem _ hq)) p hp'

theorem range_from_token_dash (t : List Char) : range_from_token ('-' :: t) = none := by
  unfold range_from_token
  rw [show splitOnChar '-' ('-' :: t) = [] :: splitOnChar '-' t from by
    rw [splitOnChar, if_pos rfl]]
  simp [clean_endpoint, stripChars, parseNat]

/-- C10: for every input string, the parse result satisfies the canonical
invariant, every returned range has 0 <= start <= stop, and a token beginning
with a dash can never contribute (its first endpoint is empty after the dash
split, so the token is dropped) — hence no negative endpoint is possible. -/
theorem C10_thm (s : List Char) :
    IsNormalized (identifier_ranges_from_string s) ∧
    (∀ r ∈ identifier_ranges_from_string s, 0 ≤ r.1 ∧ r.1 ≤ r.2) ∧
    (∀ t : List Char, range_from_token ('-' :: t) = none) := by
  have hval : ∀ r ∈ (splitOnChar ',' s).filterMap range_from_token, r.1 ≤ r.2 :=
    fun r hr => (parse_ranges_valid s r hr).2
  have hnn : ∀ r ∈ (splitOnChar ',' s).filterMap range_from_token, 0 ≤ r.1 :=
    fun r hr => (parse_ranges_valid s r hr).1
  have hnorm : IsNormalized (identifier_ranges_from_string s) := fix_normalized hval
  refine ⟨hnorm, ?_, fun t => range_from_token_dash t⟩
  intro r hr
  refine ⟨?_, hnorm.2 r hr⟩
  unfold identifier_ranges_from_string identifier_ranges_fix at hr
  have hsort : ∀ q ∈ sortRanges ((splitOnChar ',' s).filterMap range_from_token), 0 ≤ q.1 :=
    fun q hq => hnn q ((sortRanges_perm _).mem_iff.mp hq)
  rcases hl : sortRanges ((splitOnChar ',' s).filterMap range_from_token) with _ | ⟨r0, rest⟩ <;>
    rw [hl] at hr hsort
  · simp [mergeRanges] at hr
  · rw [mergeRanges] at hr
    exact mergeInto_fst_prop (fun z => 0 ≤ z) rest r0 (hsort r0 (List.mem_cons_self _ _))
      (fun q hq => hsort q (List.mem_cons_of_mem _ hq)) r hr

/-- C10 witness at the input "1-3". -/
theorem C10_witness : IsNormalized (identifier_ranges_from_string ['1', '-', '3']) :=
  (C10_thm ['1', '-', '3']).1

theorem domainRunLoop_head : ∀ (rest : List Int) (start stop : Int),
    ∃ s tl, domainRunLoop start stop rest = (start, s) :: tl ∧ stop ≤ s := by
  intro rest
  induction rest with
  | nil => intro start stop; exact ⟨stop, [], rfl, le_refl _⟩
  | cons i rest ih =>
    intro start stop
    by_cases hi : i = stop + 1
    · obtain ⟨s, tl, heq, hle⟩ := ih start i
      exact ⟨s, tl, by rw [domainRunLoop, if_pos hi]; exact heq, by omega⟩
    · exact ⟨stop, domainRunLoop i i rest, by rw [domainRunLoop, if_neg hi], le_refl _⟩

theorem domainRunLoop_spec : ∀ (rest : List Int) (start stop : Int), start ≤ stop →
    List.Chain' (· < ·) (stop :: rest) →
    IsNormalized (domainRunLoop start stop rest) ∧
    (∀ x, covers (domainRunLoop start stop rest) x ↔ (start ≤ x ∧ x ≤ stop) ∨ x ∈ rest) := by
  intro rest
  induction rest with
  | nil =>
    intro start stop hss _
    constructor
    · refine ⟨List.chain'_singleton _, ?_⟩
      intro r hr
      simp only [domainRunLoop, List.mem_singleton] at hr
      subst hr
      exact hss
    · intro x
      simp [domainRunLoop, covers]
  | cons i rest ih =>
    intro start stop hss hch
    have hsi : stop < i := (List.chain'_cons.mp hch).1
    have hch' : List.Chain' (· < ·) (i :: rest) := (List.chain'_cons.mp hch).2
    by_cases hi : i = stop + 1
    · rw [domainRunLoop, if_pos hi]
      obtain ⟨hn, hcov⟩ := ih start i (by omega) hch'
      refine ⟨hn, fun x => ?_⟩
      rw [hcov x, List.mem_cons]
      subst hi
      constructor
      · rintro (⟨h1, h2⟩ | hm)
        · by_cases hx : x ≤ stop
          · exact Or.inl ⟨h1, hx⟩
          · exact Or.inr (Or.inl (by omega))
        · exact Or.inr (Or.inr hm)
      · rintro (⟨h1, h2⟩ | h | hm)
        · exact Or.inl ⟨h1, by omega⟩
        · exact Or.inl (by omega)
        · exact Or.inr hm
    · rw [domainRunLoop, if_neg hi]
      obtain ⟨hn, hcov⟩ := ih i i (le_refl i) hch'
      obtain ⟨s, tl, heq, hle⟩ := domainRunLoop_head rest i i
      constructor
      · refine isNormalized_cons.mpr ⟨?_, hss, hn⟩
        intro q hq
        rw [heq] at hq
        simp only [List.head?_cons, Option.mem_def, Option.some.injEq] at hq
        subst hq
        show stop + 1 < i
        omega
      · intro x
        rw [covers_cons, hcov x, List.mem_cons]
        constructor
        · rintro (⟨h1, h2⟩ | ⟨h1, h2⟩ | hm)
          · exact Or.inl ⟨h1, h2⟩
          · exact Or.inr (Or.inl (by omega))
          · exact Or.inr (Or.inr hm)
        · rintro (⟨h1, h2⟩ | rfl | hm)
          · exact Or.inl ⟨h1, h2⟩
          · exact Or.inr (Or.inl ⟨le_refl _, le_refl _⟩)
          · exact Or.inr (Or.inr hm)

/-- C7: for every sequence of identifiers yielded in strictly ascending
order, range extraction returns the normalized range list covering exactly
those identifiers, and the empty sequence yields the empty list. -/
theorem C7_thm :
    (∀ l : List Int, List.Chain' (· < ·) l →
      IsNormalized (domain_iterator_to_identifier_ranges l) ∧
      ∀ x, covers (domain_iterator_to_identifier_ranges l) x ↔ x ∈ l) ∧
    domain_iterator_to_identifier_ranges [] = [] := by
  refine ⟨?_, rfl⟩
  intro l hch
  cases l with
  | nil =>
    constructor
    · exact ⟨List.chain'_nil, by intro r hr; simp [domain_iterator_to_identifier_ranges] at hr⟩
    · intro x
      simp [domain_iterator_to_identifier_ranges, covers]
  | cons i rest =>
    rw [domain_iterator_to_identifier_ranges]
    obtain ⟨hn, hcov⟩ := domainRunLoop_spec rest i i (le_refl i) hch
    refine ⟨hn, fun x => ?_⟩
    rw [hcov x, List.mem_cons]
    constructor
    · rintro (⟨h1, h2⟩ | hm)
      · exact Or.inl (by omega)
      · exact Or.inr hm
    · rintro (rfl | hm)
      · exact Or.inl ⟨le_refl _, le_refl _⟩
      · exact Or.inr hm

/-- C7 witness: the spec's example sequence [1,2,3,55,66,67,68,69,70]. -/
theorem C7_witness : List.Chain' (· < ·) [(1 : Int), 2, 3, 55, 66, 67, 68, 69, 70] ∧
    IsNormalized (domain_iterator_to_identifier_ranges
      [(1 : Int), 2, 3, 55, 66, 67, 68, 69, 70]) :=
  ⟨by norm_num [List.chain'_cons, List.chain'_singleton],
    (C7_thm.1 [(1 : Int), 2, 3, 55, 66, 67, 68, 69, 70]
      (by norm_num [List.chain'_cons, List.chain'_singleton])).1⟩

theorem find_missing_cons (x y : Nat) (rest : List Nat) :
    find_missing (x :: y :: rest) =
      (if y - x > 1 then List.range' (x + 1) (y - x - 1) else []) ++
        find_missing (y :: rest) := rfl

theorem range'_pairwise : ∀ (n s : Nat), (List.range' s n).Pairwise (· < ·) := by
  intro n
  induction n with
  | zero => intro s; exact List.Pairwise.nil
  | succ k ih =>
    intro s
    rw [List.range'_succ s k 1]
    refine List.Pairwise.cons ?_ (ih (s + 1))
    intro z hz
    have := List.mem_range'_1.mp hz
    omega

theorem find_missing_facts : ∀ {l : List Nat}, l.Pairwise (· < ·) →
    ∀ m ∈ find_missing l, m ∉ l ∧ (∃ z ∈ l, z < m) ∧ ∃ w ∈ l, m < w := by
  intro l
  induction l with
  | nil => intro _ m hm; cases hm
  | cons x xs ih =>
    intro hp m hm
    cases xs with
    | nil => cases hm
    | cons y rest =>
      rw [find_missing_cons] at hm
      rcases List.mem_append.mp hm with h1 | h2
      · have hguard : y - x > 1 := by
          by_contra hg
          rw [if_neg hg] at h1
          cases h1
        rw [if_pos hguard] at h1
        have hb := List.mem_range'_1.mp h1
        have hxm : x < m := by omega
        have hmy : m < y := by omega
        refine ⟨?_, ⟨x, List.mem_cons_self _ _, hxm⟩,
          ⟨y, List.mem_cons_of_mem _ (List.mem_cons_self _ _), hmy⟩⟩
        intro hmem
        rcases List.mem_cons.mp hmem with rfl | hmem'
        · omega
        rcases List.mem_cons.mp hmem' with rfl | hmem''
        · omega
        · have := List.rel_of_pairwise_cons hp.of_cons hmem''
          omega
      · obtain ⟨hnot, ⟨z, hz, hzm⟩, ⟨w, hw, hmw⟩⟩ := ih hp.of_cons m h2
        have hxz : x < z := List.rel_of_pairwise_cons hp hz
        refine ⟨?_, ⟨z, List.mem_cons_of_mem _ hz, hzm⟩, ⟨w, List.mem_cons_of_mem _ hw, hmw⟩⟩
        intro hmem
        rcases List.mem_cons.mp hmem with rfl | hmem'
        · omega
        · exact hnot hmem'

theorem find_missing_sorted : ∀ {l : List Nat}, l.Pairwise (· < ·) →
    (find_missing l).Pairwise (· < ·) := by
  intro l
  induction l with
  | nil => intro _; exact List.Pairwise.nil
  | cons x xs ih =>
    intro hp
    cases xs with
    | nil => exact List.Pairwise.nil
    | cons y rest =>
      rw [find_missing_cons]
      rw [List.pairwise_append]
      refine ⟨?_, ih hp.of_cons, ?_⟩
      · split
        · exact range'_pairwise _ _
        · exact List.Pairwise.nil
      · intro u hu v hv
        have huy : u < y := by
          by_cases hguard : y - x > 1
          · rw [if_pos hguard] at hu
            have := List.mem_range'_1.mp hu
            omega
          · rw [if_neg hguard] at hu
            cases hu
        obtain ⟨_, ⟨z, hz, hzv⟩, _⟩ := find_missing_facts hp.of_cons v hv
        rcases List.mem_cons.mp hz with rfl | hz'
        · omega
        · have := List.rel_of_pairwise_cons hp.of_cons hz'
          omega

theorem sortedDedup_mem {l : List Nat} {x : Nat} : x ∈ sortedDedup l ↔ x ∈ l := by
  unfold sortedDedup
  rw [(List.perm_insertionSort _ _).mem_iff, List.mem_dedup]

theorem sortedDedup_pairwise (l : List Nat) : (sortedDedup l).Pairwise (· < ·) := by
  have hs : List.Sorted (fun x y => x ≤ y) (sortedDedup l) :=
    List.sorted_insertionSort _ _
  have hn : (sortedDedup l).Nodup :=
    ((List.perm_insertionSort _ _).nodup_iff).mpr (List.nodup_dedup l)
  exact (hs.and hn).imp fun h => lt_of_le_of_ne h.1 h.2

theorem pairwise_le_getLastD : ∀ (l : List Nat) (d : Nat), l.Pairwise (· < ·) →
    ∀ z ∈ l, z ≤ l.getLastD d := by
  intro l
  induction l with
  | nil => intro d _ z hz; cases hz
  | cons x xs ih =>
    intro d hp z hz
    rw [List.getLastD_cons]
    rcases List.mem_cons.mp hz with rfl | hz'
    · cases xs with
      | nil => exact le_refl _
      | cons w ws =>
        have hxw : z < w := List.rel_of_pairwise_cons hp (List.mem_cons_self _ _)
        have := ih z hp.of_cons w (List.mem_cons_self _ _)
        omega
    · exact ih x hp.of_cons z hz'

theorem pairwise_headD_le (l : List Nat) (d : Nat) (hp : l.Pairwise (· < ·)) :
    ∀ z ∈ l, l.headD d ≤ z := by
  intro z hz
  cases l with
  | nil => cases hz
  | cons x xs =>
    simp only [List.headD_cons]
    rcases List.mem_cons.mp hz with rfl | hz'
    · exact le_refl _
    · exact le_of_lt (List.rel_of_pairwise_cons hp hz')

theorem in_use_subset_a (a b : List Nat) : ∀ x ∈ a, x ∈ in_use_identifiers a b :=
  fun _ hx => sortedDedup_mem.mpr (List.mem_append.mpr (Or.inr hx))

theorem in_use_subset_b (a b : List Nat) : ∀ x ∈ b, x ∈ in_use_identifiers a b :=
  fun _ hx => sortedDedup_mem.mpr (List.mem_append.mpr (Or.inl hx))

theorem in_use_le_max (a b : List Nat) : ∀ x ∈ in_use_identifiers a b,
    x ≤ max_identifier a b :=
  fun x hx => pairwise_le_getLastD _ 0 (sortedDedup_pairwise _) x hx

theorem in_use_pairwise (a b : List Nat) : (in_use_identifiers a b).Pairwise (· < ·) :=
  sortedDedup_pairwise (b ++ a)

theorem gap_list_facts (a b : List Nat) : ∀ g ∈ gap_list a b,
    g ∉ in_use_identifiers a b ∧ g ≤ max_identifier a b := by
  intro g hg
  rcases List.mem_append.mp hg with h1 | h2
  · have hb := List.mem_range'_1.mp h1
    constructor
    · intro hgin
      have hh := pairwise_headD_le (in_use_identifiers a b) 1 (in_use_pairwise a b) g hgin
      omega
    · rcases hiu : in_use_identifiers a b with _ | ⟨x, xs⟩
      · rw [hiu] at hb
        simp only [List.headD_nil] at hb
        omega
      · have hx_le : x ≤ max_identifier a b :=
          in_use_le_max a b x (by rw [hiu]; exact List.mem_cons_self _ _)
        rw [hiu] at hb
        simp only [List.headD_cons] at hb
        omega
  · obtain ⟨hnotin, _, ⟨w, hw, hgw⟩⟩ := find_missing_facts (in_use_pairwise a b) g h2
    exact ⟨hnotin, le_trans (le_of_lt hgw) (in_use_le_max a b w hw)⟩

theorem gap_list_pairwise (a b : List Nat) : (gap_list a b).Pairwise (· < ·) := by
  unfold gap_list
  rw [List.pairwise_append]
  refine ⟨range'_pairwise _ _, find_missing_sorted (in_use_pairwise a b), ?_⟩
  intro u hu v hv
  have hub := List.mem_range'_1.mp hu
  obtain ⟨_, ⟨z, hz, hzv⟩, _⟩ := find_missing_facts (in_use_pairwise a b) v hv
  have hhz := pairwise_headD_le (in_use_identifiers a b) 1 (in_use_pairwise a b) z hz
  omega

theorem remapLoop_value_src : ∀ (aSet cs : List Nat), ∀ (avail : List Nat) (maxId : Nat),
    ∀ p ∈ remapLoop aSet cs avail maxId, p.2 ∈ avail ∨ maxId < p.2 := by
  intro aSet cs
  induction cs with
  | nil => intro avail maxId p hp; simp [remapLoop] at hp
  | cons c cs ih =>
    intro avail maxId p hp
    cases avail with
    | nil =>
      rw [remapLoop] at hp
      rcases List.mem_cons.mp hp with rfl | hp'
      · right; exact Nat.lt_succ_self _
      · rcases ih [] (maxId + 1) p hp' with h | h
        · exact absurd h (List.not_mem_nil _)
        · right; omega
    | cons g rest =>
      rw [remapLoop] at hp
      by_cases hca : c ∈ aSet
      · rw [if_pos hca] at hp
        rcases List.mem_cons.mp hp with rfl | hp'
        · left; exact List.mem_cons_self _ _
        · rcases ih rest maxId p hp' with h | h
          · left; exact List.mem_cons_of_mem _ h
          · right; exact h
      · rw [if_neg hca] at hp
        rcases List.mem_cons.mp hp with rfl | hp'
        · right; exact Nat.lt_succ_self _
        · rcases ih (g :: rest) (maxId + 1) p hp' with h | h
          · left; exact h
          · right; omega

theorem remapLoop_values_nodup : ∀ (aSet cs : List Nat), ∀ (avail : List Nat) (maxId : Nat),
    avail.Nodup → (∀ g ∈ avail, g ≤ maxId) →
    ((remapLoop aSet cs avail maxId).map Prod.snd).Nodup := by
  intro aSet cs
  induction cs with
  | nil => intro avail maxId _ _; simp [remapLoop]
  | cons c cs ih =>
    intro avail maxId hnd hle
    cases avail with
    | nil =>
      rw [remapLoop, List.map_cons, List.nodup_cons]
      constructor
      · intro hmem
        obtain ⟨p, hp, hpv⟩ := List.mem_map.mp hmem
        rcases remapLoop_value_src aSet cs [] (maxId + 1) p hp with h | h
        · exact absurd h (List.not_mem_nil _)
        · omega
      · exact ih [] (maxId + 1) List.nodup_nil (by intro g hg; cases hg)
    | cons g rest =>
      rw [remapLoop]
      by_cases hca : c ∈ aSet
      · rw [if_pos hca, List.map_cons, List.nodup_cons]
        constructor
        · intro hmem
          obtain ⟨p, hp, hpv⟩ := List.mem_map.mp hmem
          rcases remapLoop_value_src aSet cs rest maxId p hp with h | h
          · rw [hpv] at h
            exact (List.nodup_cons.mp hnd).1 h
          · have := hle g (List.mem_cons_self _ _)
            omega
        · exact ih rest maxId (List.nodup_cons.mp hnd).2
            fun g' hg' => hle g' (List.mem_cons_of_mem _ hg')
      · rw [if_neg hca, List.map_cons, List.nodup_cons]
        constructor
        · intro hmem
          obtain ⟨p, hp, hpv⟩ := List.mem_map.mp hmem
          rcases remapLoop_value_src aSet cs (g :: rest) (maxId + 1) p hp with h | h
          · have := hle p.2 h
            omega
          · omega
        · exact ih (g :: rest) (maxId + 1) hnd
            fun g' hg' => le_trans (hle g' hg') (Nat.le_succ _)

theorem remapLoop_values_not_in (aSet cs avail : List Nat) (maxId : Nat) (xs : List Nat)
    (hgap : ∀ g ∈ avail, g ∉ xs) (hxb : ∀ x ∈ xs, x ≤ maxId) :
    ∀ p ∈ remapLoop aSet cs avail maxId, p.2 ∉ xs := by
  intro p hp hmem
  rcases remapLoop_value_src aSet cs avail maxId p hp with h | h
  · exact hgap p.2 h hmem
  · have := hxb p.2 hmem
    omega

theorem remapLoop_keys : ∀ (aSet cs : List Nat), ∀ (avail : List Nat) (maxId : Nat),
    (remapLoop aSet cs avail maxId).map Prod.fst = cs := by
  intro aSet cs
  induction cs with
  | nil => intro avail maxId; rfl
  | cons c cs ih =>
    intro avail maxId
    cases avail with
    | nil =>
      rw [remapLoop]
      simp [ih]
    | cons g rest =>
      rw [remapLoop]
      by_cases hca : c ∈ aSet
      · rw [if_pos hca]
        simp [ih]
      · rw [if_neg hca]
        simp [ih]

theorem remapLoop_noncolliding_high : ∀ (aSet cs : List Nat), ∀ (avail : List Nat) (maxId : Nat),
    ∀ p ∈ remapLoop aSet cs avail maxId, p.1 ∉ aSet → maxId < p.2 := by
  intro aSet cs
  induction cs with
  | nil => intro avail maxId p hp; simp [remapLoop] at hp
  | cons c cs ih =>
    intro avail maxId p hp hpa
    cases avail with
    | nil =>
      rw [remapLoop] at hp
      rcases List.mem_cons.mp hp with rfl | hp'
      · exact Nat.lt_succ_self _
      · have := ih [] (maxId + 1) p hp' hpa
        omega
    | cons g rest =>
      rw [remapLoop] at hp
      by_cases hca : c ∈ aSet
      · rw [if_pos hca] at hp
        rcases List.mem_cons.mp hp with rfl | hp'
        · exact absurd hca hpa
        · exact ih rest maxId p hp' hpa
      · rw [if_neg hca] at hp
        rcases List.mem_cons.mp hp with rfl | hp'
        · exact Nat.lt_succ_self _
        · have := ih (g :: rest) (maxId + 1) p hp' hpa
          omega

theorem remapLoop_gap_order : ∀ (aSet cs : List Nat), ∀ (avail : List Nat) (maxId : Nat),
    (((remapLoop aSet cs avail maxId).filter fun p => decide (p.1 ∈ aSet)).map
        Prod.snd).take avail.length
      = avail.take (((remapLoop aSet cs avail maxId).filter fun p =>
          decide (p.1 ∈ aSet)).map Prod.snd).length ∧
    ∀ v ∈ (((remapLoop aSet cs avail maxId).filter fun p => decide (p.1 ∈ aSet)).map
        Prod.snd).drop avail.length, maxId < v := by
  intro aSet cs
  induction cs with
  | nil =>
    intro avail maxId
    constructor
    · simp [remapLoop]
    · intro v hv
      simp [remapLoop] at hv
  | cons c cs ih =>
    intro avail maxId
    cases avail with
    | nil =>
      rw [remapLoop]
      by_cases hca : c ∈ aSet
      · have hflt : (List.filter (fun p => decide (p.1 ∈ aSet))
            ((c, maxId + 1) :: remapLoop aSet cs [] (maxId + 1)))
            = (c, maxId + 1) :: (remapLoop aSet cs [] (maxId + 1)).filter
                fun p => decide (p.1 ∈ aSet) := by
          rw [List.filter_cons]
          simp [hca]
        rw [hflt, List.map_cons]
        constructor
        · simp
        · intro v hv
          simp only [List.length_nil, List.drop_zero] at hv
          rcases List.mem_cons.mp hv with rfl | hv'
          · exact Nat.lt_succ_self _
          · have h2 := (ih [] (maxId + 1)).2 v (by simpa using hv')
            omega
      · have hflt : (List.filter (fun p => decide (p.1 ∈ aSet))
            ((c, maxId + 1) :: remapLoop aSet cs [] (maxId + 1)))
            = (remapLoop aSet cs [] (maxId + 1)).filter
                fun p => decide (p.1 ∈ aSet) := by
          rw [List.filter_cons]
          simp [hca]
        rw [hflt]
        constructor
        · simp
        · intro v hv
          have := (ih [] (maxId + 1)).2 v (by simpa using hv)
          omega
    | cons g rest =>
      rw [remapLoop]
      by_cases hca : c ∈ aSet
      · have hflt : (List.filter (fun p => decide (p.1 ∈ aSet))
            ((c, g) :: remapLoop aSet cs rest maxId))
            = (c, g) :: (remapLoop aSet cs rest maxId).filter
                fun p => decide (p.1 ∈ aSet) := by
          rw [List.filter_cons]
          simp [hca]
        rw [if_pos hca, hflt, List.map_cons]
        constructor
        · rw [List.length_cons, List.length_cons, List.take_succ_cons, List.take_succ_cons,
            (ih rest maxId).1]
        · intro v hv
          rw [List.length_cons, List.drop_succ_cons] at hv
          exact (ih rest maxId).2 v hv
      · have hflt : (List.filter (fun p => decide (p.1 ∈ aSet))
            ((c, maxId + 1) :: remapLoop aSet cs (g :: rest) (maxId + 1)))
            = (remapLoop aSet cs (g :: rest) (maxId + 1)).filter
                fun p => decide (p.1 ∈ aSet) := by
          rw [List.filter_cons]
          simp [hca]
        rw [if_neg hca, hflt]
        constructor
        · exact (ih (g :: rest) (maxId + 1)).1
        · intro v hv
          have := (ih (g :: rest) (maxId + 1)).2 v hv
          omega

/-- C1: the claim is false on the code: a candidate that does not collide
with existing_A does not keep its identifier.  With existing_A = {1},
existing_B = {2} and candidate 2 (not in existing_A), the code assigns it
3 (one past the high-water mark), not 2. -/
theorem C1_counterexample : (2 : Nat) ∉ ([1] : List Nat) ∧
    computeRemap [1] [2] [2] = [(2, 3)] := by decide

/-- C1 (amended): a candidate identifier not present in existing_A is not
kept; it is remapped to a fresh identifier strictly greater than the largest
in-use identifier (the running high-water mark), so in particular any
candidate drawn from existing_B changes its identifier. -/
theorem C1_thm (a b cs : List Nat) :
    ∀ p ∈ computeRemap a b cs, p.1 ∉ a →
      max_identifier a b < p.2 ∧ (p.1 ∈ b → p.2 ≠ p.1) := by
  intro p hp hpa
  have hhigh := remapLoop_noncolliding_high a cs (gap_list a b) (max_identifier a b) p hp hpa
  refine ⟨hhigh, fun hpb => ?_⟩
  have := in_use_le_max a b p.1 (in_use_subset_b a b p.1 hpb)
  omega

/-- C1 witness: at existing_A = [1], existing_B = [2], candidates = [2]. -/
theorem C1_witness : ((2, 3) ∈ computeRemap [1] [2] [2] ∧ (2 : Nat) ∉ ([1] : List Nat)) ∧
    max_identifier [1] [2] < 3 ∧ ((2 : Nat) ∈ ([2] : List Nat) → (3 : Nat) ≠ 2) :=
  ⟨by decide, C1_thm [1] [2] [2] (2, 3) (by decide) (by decide)⟩

/-- C2: for every existing_A, existing_B and candidate list, the computed
mapping assigns every candidate (its keys are exactly the candidate list in
order), the assigned identifiers are pairwise distinct, and none of them
lies in existing_A. -/
theorem C2_thm (a b cs : List Nat) :
    ((computeRemap a b cs).map Prod.snd).Nodup ∧
    (∀ p ∈ computeRemap a b cs, p.2 ∉ a) ∧
    (computeRemap a b cs).map Prod.fst = cs := by
  have hgf := gap_list_facts a b
  have hnd : (gap_list a b).Nodup := (gap_list_pairwise a b).imp fun h => Nat.ne_of_lt h
  refine ⟨?_, ?_, remapLoop_keys a cs (gap_list a b) (max_identifier a b)⟩
  · exact remapLoop_values_nodup a cs (gap_list a b) (max_identifier a b) hnd
      fun g hg => (hgf g hg).2
  · exact remapLoop_values_not_in a cs (gap_list a b) (max_identifier a b) a
      (fun g hg hga => (hgf g hg).1 (in_use_subset_a a b g hga))
      fun x hx => in_use_le_max a b x (in_use_subset_a a b x hx)

/-- C2 witness: a concrete remap with collisions. -/
theorem C2_witness : ((computeRemap [1, 2, 4, 5] [2, 3] [2, 3]).map Prod.snd).Nodup :=
  (C2_thm [1, 2, 4, 5] [2, 3] [2, 3]).1

/-- C6: the colliding candidates receive, in order, exactly a prefix of the
gap list (the unused identifiers below and between the in-use ones, in
ascending order), and once the gap list is exhausted every further colliding
candidate receives an identifier strictly above the largest in-use one. -/
theorem C6_thm (a b cs : List Nat) :
    (((computeRemap a b cs).filter fun p => decide (p.1 ∈ a)).map
        Prod.snd).take (gap_list a b).length
      = (gap_list a b).take (((computeRemap a b cs).filter fun p =>
          decide (p.1 ∈ a)).map Prod.snd).length ∧
    (∀ v ∈ (((computeRemap a b cs).filter fun p => decide (p.1 ∈ a)).map
        Prod.snd).drop (gap_list a b).length, max_identifier a b < v) ∧
    (gap_list a b).Pairwise (· < ·) := by
  obtain ⟨h1, h2⟩ := remapLoop_gap_order a cs (gap_list a b) (max_identifier a b)
  exact ⟨h1, h2, gap_list_pairwise a b⟩

/-- C6 witness: the spec's example existing_A = {1,2,4,5}; the sole colliding
candidate is assigned the gap identifier 3. -/
theorem C6_witness :
    (((computeRemap [1, 2, 4, 5] [1] [1]).filter fun p =>
        decide (p.1 ∈ ([1, 2, 4, 5] : List Nat))).map
        Prod.snd).take (gap_list [1, 2, 4, 5] [1]).length
      = (gap_list [1, 2, 4, 5] [1]).take
          (((computeRemap [1, 2, 4, 5] [1] [1]).filter fun p =>
            decide (p.1 ∈ ([1, 2, 4, 5] : List Nat))).map Prod.snd).length :=
  (C6_thm [1, 2, 4, 5] [1] [1]).1

theorem digitChar_isDigit (d : Nat) : (digitChar d).isDigit = true := by
  unfold digitChar
  split_ifs <;> decide

theorem digitChar_not_whitespace (d : Nat) : (digitChar d).isWhitespace = false := by
  unfold digitChar
  split_ifs <;> decide

theorem digitChar_ne_comma (d : Nat) : digitChar d ≠ ',' := by
  unfold digitChar
  split_ifs <;> decide

theorem digitChar_ne_dash (d : Nat) : digitChar d ≠ '-' := by
  unfold digitChar
  split_ifs <;> decide

theorem digitVal_digitChar {d : Nat} (hd : d < 10) : digitVal (digitChar d) = d := by
  interval_cases d <;> decide

theorem natToCharsAux_eq : ∀ (fuel n : Nat), n ≤ fuel →
    natToCharsAux fuel n = (Nat.digits 10 n).map digitChar := by
  intro fuel
  induction fuel with
  | zero =>
    intro n hn
    interval_cases n
    simp [natToCharsAux]
  | succ fuel ih =>
    intro n hn
    cases n with
    | zero => simp [natToCharsAux]
    | succ m =>
      rw [natToCharsAux]
      rw [ih ((m + 1) / 10) (by
        have := Nat.div_lt_self (Nat.succ_pos m) (by norm_num : 1 < 10)
        omega)]
      rw [Nat.digits_def' (by norm_num : (1 : Nat) < 10) (Nat.succ_pos m), List.map_cons]
      exact Nat.succ_ne_zero m

theorem parse_foldl_digits : ∀ (ds : List Nat) (acc : Nat), (∀ d ∈ ds, d < 10) →
    ((ds.map digitChar).reverse).foldl (fun a c => 10 * a + digitVal c) acc
      = acc * 10 ^ ds.length + Nat.ofDigits 10 ds := by
  intro ds
  induction ds with
  | nil => intro acc _; simp
  | cons d ds ih =>
    intro acc hd
    rw [List.map_cons, List.reverse_cons, List.foldl_append,
      ih acc fun d' hd' => hd d' (List.mem_cons_of_mem _ hd')]
    simp only [List.foldl_cons, List.foldl_nil]
    rw [digitVal_digitChar (hd d (List.mem_cons_self _ _)), Nat.ofDigits_cons,
      List.length_cons]
    ring

theorem natToChars_forall_digitChar (n : Nat) : ∀ c ∈ natToChars n, ∃ d, c = digitChar d := by
  intro c hc
  unfold natToChars at hc
  split at hc
  · simp only [List.mem_singleton] at hc
    exact ⟨0, by rw [hc]; rfl⟩
  · rw [natToCharsAux_eq n n (le_refl n), List.mem_reverse] at hc
    obtain ⟨d, _, hdc⟩ := List.mem_map.mp hc
    exact ⟨d, hdc.symm⟩

theorem natToChars_all_digits (n : Nat) : ∀ c ∈ natToChars n, c.isDigit = true := by
  intro c hc
  obtain ⟨d, rfl⟩ := natToChars_forall_digitChar n c hc
  exact digitChar_isDigit d

theorem natToChars_no_dash (n : Nat) : '-' ∉ natToChars n := by
  intro hmem
  obtain ⟨d, hd⟩ := natToChars_forall_digitChar n '-' hmem
  exact digitChar_ne_dash d hd.symm

theorem natToChars_no_comma (n : Nat) : ',' ∉ natToChars n := by
  intro hmem
  obtain ⟨d, hd⟩ := natToChars_forall_digitChar n ',' hmem
  exact digitChar_ne_comma d hd.symm

theorem natToChars_ne_nil (n : Nat) : natToChars n ≠ [] := by
  unfold natToChars
  by_cases hn : n = 0
  · simp [hn]
  · rw [if_neg hn, natToCharsAux_eq n n (le_refl n)]
    simp [Nat.digits_ne_nil_iff_ne_zero, hn]

theorem parseNat_natToChars (n : Nat) : parseNat (natToChars n) = some n := by
  by_cases hn : n = 0
  · subst hn; decide
  · unfold parseNat
    rw [if_pos ⟨natToChars_ne_nil n, by
      rw [List.all_eq_true]
      intro c hc
      exact natToChars_all_digits n c hc⟩]
    congr 1
    have hrw : natToChars n = ((Nat.digits 10 n).map digitChar).reverse := by
      unfold natToChars
      rw [if_neg hn, natToCharsAux_eq n n (le_refl n)]
    rw [hrw, parse_foldl_digits (Nat.digits 10 n) 0
      fun d hd => Nat.digits_lt_base (by norm_num) hd, Nat.ofDigits_digits]
    simp

theorem dropWhile_eq_self_of {p : Char → Bool} {s : List Char}
    (h : ∀ c ∈ s, p c = false) : s.dropWhile p = s := by
  cases s with
  | nil => rfl
  | cons x xs =>
    rw [List.dropWhile_cons, h x (List.mem_cons_self _ _)]
    simp

theorem stripChars_eq_self {s : List Char} (h : ∀ c ∈ s, c.isWhitespace = false) :
    stripChars s = s := by
  unfold stripChars
  rw [dropWhile_eq_self_of h,
    dropWhile_eq_self_of fun c hc => h c (List.mem_reverse.mp hc)]
  exact List.reverse_reverse s

theorem takeWhile_eq_self_of {p : Char → Bool} : ∀ {s : List Char},
    (∀ c ∈ s, p c = true) → s.takeWhile p = s := by
  intro s
  induction s with
  | nil => intro _; rfl
  | cons x xs ih =>
    intro h
    rw [List.takeWhile_cons, h x (List.mem_cons_self _ _)]
    simp [ih fun c hc => h c (List.mem_cons_of_mem _ hc)]

theorem clean_endpoint_natToChars (n : Nat) :
    clean_endpoint (natToChars n) = natToChars n := by
  unfold clean_endpoint
  have hw : ∀ c ∈ natToChars n, c.isWhitespace = false := by
    intro c hc
    obtain ⟨d, rfl⟩ := natToChars_forall_digitChar n c hc
    exact digitChar_not_whitespace d
  rw [stripChars_eq_self hw]
  exact takeWhile_eq_self_of (natToChars_all_digits n)

theorem intToChars_nonneg {i : Int} (h : 0 ≤ i) : intToChars i = natToChars i.toNat := by
  unfold intToChars
  rw [if_neg (by omega)]

theorem range_from_token_pair {t e0 e1 : List Char} {n m : Nat}
    (hsplit : (splitOnChar '-' t).map clean_endpoint = [e0, e1])
    (h0 : parseNat e0 = some n) (h1 : parseNat e1 = some m) :
    range_from_token t =
      if m < n then some ((m : Int), (n : Int)) else some ((n : Int), (m : Int)) := by
  unfold range_from_token
  rw [hsplit]
  simp [h0, h1]

theorem range_from_token_roundtrip {a b : Int} (ha : 0 ≤ a) (hab : a ≤ b) :
    range_from_token (range_to_chars (a, b)) = some (a, b) := by
  have hb : (0 : Int) ≤ b := by omega
  have hform : range_to_chars (a, b)
      = if a = b then intToChars a else intToChars a ++ '-' :: intToChars b := rfl
  rw [hform]
  by_cases heq : a = b
  · rw [if_pos heq, intToChars_nonneg ha,
      range_from_token_single (natToChars_no_dash _)
        (by rw [clean_endpoint_natToChars]; exact parseNat_natToChars _),
      Int.toNat_of_nonneg ha, heq]
  · rw [if_neg heq, intToChars_nonneg ha, intToChars_nonneg hb]
    have htok : (splitOnChar '-' (natToChars a.toNat ++ '-' :: natToChars b.toNat)).map
        clean_endpoint = [natToChars a.toNat, natToChars b.toNat] := by
      rw [splitOnChar_append '-' (natToChars a.toNat) (natToChars b.toNat),
        splitOnChar_not_mem (natToChars_no_dash a.toNat),
        splitOnChar_not_mem (natToChars_no_dash b.toNat)]
      simp [clean_endpoint_natToChars]
    rw [range_from_token_pair htok (parseNat_natToChars _) (parseNat_natToChars _),
      if_neg (by omega : ¬ b.toNat < a.toNat),
      Int.toNat_of_nonneg ha, Int.toNat_of_nonneg hb]

theorem foldl_format (rest : List (Int × Int)) : ∀ acc : List Char,
    rest.foldl (fun acc q => acc ++ ',' :: range_to_chars q) acc
      = acc ++ (rest.map fun q => ',' :: range_to_chars q).flatten := by
  induction rest with
  | nil => intro acc; simp
  | cons q qs ih =>
    intro acc
    rw [List.foldl_cons, ih, List.map_cons, List.flatten_cons, List.append_assoc]

theorem format_cons (r : Int × Int) (rest : List (Int × Int)) :
    identifier_ranges_to_string (r :: rest)
      = range_to_chars r ++ (rest.map fun q => ',' :: range_to_chars q).flatten := by
  rw [identifier_ranges_to_string]
  exact foldl_format rest (range_to_chars r)

theorem format_tokens : ∀ (l : List (Int × Int)), l ≠ [] →
    (∀ p ∈ l, ',' ∉ range_to_chars p) →
    splitOnChar ',' (identifier_ranges_to_string l) = l.map range_to_chars := by
  intro l
  induction l with
  | nil => intro h; exact absurd rfl h
  | cons r rest ih =>
    intro _ hnc
    cases rest with
    | nil =>
      rw [format_cons]
      simp only [List.map_nil, List.flatten_nil, List.append_nil]
      rw [splitOnChar_not_mem (hnc r (List.mem_cons_self _ _))]
      rfl
    | cons q rest' =>
      rw [format_cons, List.map_cons, List.flatten_cons]
      have hassoc : range_to_chars r ++
          ((',' :: range_to_chars q) ++ (rest'.map fun p => ',' :: range_to_chars p).flatten)
          = range_to_chars r ++ ',' ::
            (range_to_chars q ++ (rest'.map fun p => ',' :: range_to_chars p).flatten) := by
        simp
      rw [hassoc, splitOnChar_append ',' (range_to_chars r) _,
        splitOnChar_not_mem (hnc r (List.mem_cons_self _ _)), ← format_cons q rest',
        ih (by simp) fun p hp => hnc p (List.mem_cons_of_mem _ hp)]
      rfl

theorem range_to_chars_no_comma {r : Int × Int} (h1 : 0 ≤ r.1) (h2 : 0 ≤ r.2) :
    ',' ∉ range_to_chars r := by
  unfold range_to_chars
  split
  · rw [intToChars_nonneg h1]
    exact natToChars_no_comma _
  · rw [intToChars_nonneg h1, intToChars_nonneg h2]
    intro hmem
    rcases List.mem_append.mp hmem with h | h
    · exact natToChars_no_comma _ h
    · rcases List.mem_cons.mp h with heq | h'
      · exact absurd heq (by decide)
      · exact natToChars_no_comma _ h'

theorem filterMap_format : ∀ (l : List (Int × Int)), (∀ p ∈ l, 0 ≤ p.1 ∧ p.1 ≤ p.2) →
    (l.map range_to_chars).filterMap range_from_token = l := by
  intro l
  induction l with
  | nil => intro _; rfl
  | cons r rest ih =>
    intro h
    have hr := h r (List.mem_cons_self _ _)
    have hrt : range_from_token (range_to_chars r) = some r :=
      range_from_token_roundtrip hr.1 hr.2
    rw [List.map_cons, List.filterMap_cons, hrt]
    rw [ih fun p hp => h p (List.mem_cons_of_mem _ hp)]

/-- C5: for every normalized range list with nonnegative starts, parsing the
formatted string returns exactly the original list. -/
theorem C5_thm (r : List (Int × Int)) (hn : IsNormalized r)
    (hnn : ∀ p ∈ r, 0 ≤ p.1) :
    identifier_ranges_from_string (identifier_ranges_to_string r) = r := by
  cases r with
  | nil => rfl
  | cons p rest =>
    unfold identifier_ranges_from_string
    rw [format_tokens (p :: rest) (by simp) fun q hq =>
      range_to_chars_no_comma (hnn q hq) (by
        have h1 := hn.2 q hq
        have h2 := hnn q hq
        omega)]
    rw [filterMap_format (p :: rest) fun q hq => ⟨hnn q hq, hn.2 q hq⟩]
    exact fix_eq_self hn

/-- C5 witness: the spec's example list [[1,30],[55,55],[66,70]]. -/
theorem C5_witness : (IsNormalized [((1 : Int), 30), (55, 55), (66, 70)] ∧
    ∀ p ∈ [((1 : Int), 30), (55, 55), (66, 70)], 0 ≤ p.1) ∧
    identifier_ranges_from_string (identifier_ranges_to_string
      [((1 : Int), 30), (55, 55), (66, 70)]) = [((1 : Int), 30), (55, 55), (66, 70)] :=
  ⟨⟨⟨by norm_num [List.chain'_cons, List.chain'_singleton], by decide⟩, by decide⟩,
    C5_thm _ ⟨by norm_num [List.chain'_cons, List.chain'_singleton], by decide⟩
      (by decide)⟩
